import Mathlib

/-!
# Form Customizer (src/src/App.jsx): view-state model

A shallow embedding of the view state of `App` and of the callbacks that
mutate it.  JavaScript arrays are Lean lists, `Array.prototype.some` is
`List.any`, `Array.prototype.filter` is `List.filter`, the spread
`[...prev, item]` is `prev ++ [item]`, and `===` / `!==` on strings are
`==` / `!=` on `String`.  A property that an object literal does not carry
(`default` on the catalog items) reads as `undefined`, modelled by `none`.

A callback closes over the state of the render that created it; the lists a
handler reads from its closure are an explicit argument, the lists its
updater receives are those of the state it is applied to.
-/

namespace DragAndDrop

/-! ## Data model -/

/-- A field record: the object literals of `otherItems` and of the two
`useState` seeds.  `default` is `none` where the literal has no such key. -/
structure Field where
  name : String
  label : String
  «section» : String
  default : Option Bool
deriving DecidableEq, Repr

/-- JavaScript truthiness of the `default` property (`undefined` and `false`
are falsy, `true` is truthy). -/
def truthy : Option Bool → Bool
  | some b => b
  | none => false

/-- The static catalog, App.jsx lines 10-17. -/
def otherItems : List Field :=
  [ { name := "calendar_year2", label := "Calendar Year2", «section» := "transaction", default := none },
    { name := "fiscal_period", label := "Fiscal Period", «section» := "transaction", default := none },
    { name := "output_metrics", label := "Output Metrics", «section» := "transaction", default := none },
    { name := "developer_country", label := "Developer Country", «section» := "seller", default := none },
    { name := "sap_vendor_id", label := "SAP Vendor ID", «section» := "seller", default := none },
    { name := "developer_taid", label := "Developer TAID", «section» := "seller", default := none } ]

/-- The two pieces of `useState` held by `App`. -/
structure AppState where
  transactionFields : List Field
  sellerFields : List Field
deriving DecidableEq, Repr

/-- Seed of `transactionFields`, App.jsx line 79. -/
def transactionSeed : Field :=
  { name := "transaction_id", label := "Transaction ID", «section» := "transaction", default := some true }

/-- Seed of `sellerFields`, App.jsx line 83. -/
def sellerSeed : Field :=
  { name := "seller_name", label := "Seller Name", «section» := "seller", default := some true }

/-- The state of the first render, App.jsx lines 78-84. -/
def initialState : AppState :=
  { transactionFields := [transactionSeed], sellerFields := [sellerSeed] }

/-! ## Callbacks of `App` -/

/-- The list update of both remove callbacks:
`prev.filter((f) => f.default || f.name !== name)`. -/
def removeField (fields : List Field) (name : String) : List Field :=
  fields.filter (fun f => truthy f.default || f.name != name)

/-- App.jsx lines 87-91.  The guard reads `transactionFields`, the list of the
render in which this handler was created (first argument); the updater
receives `prev`, the list currently held by the state. -/
def handleTransactionDrop (transactionFields : List Field) (s : AppState) (item : Field) :
    AppState :=
  if !(transactionFields.any (fun f => f.name == item.name)) then
    { s with transactionFields := s.transactionFields ++ [item] }
  else s

/-- App.jsx lines 93-97, the same for `sellerFields`. -/
def handleSellerDrop (sellerFields : List Field) (s : AppState) (item : Field) : AppState :=
  if !(sellerFields.any (fun f => f.name == item.name)) then
    { s with sellerFields := s.sellerFields ++ [item] }
  else s

/-- App.jsx lines 100-103. -/
def removeTransactionField (s : AppState) (name : String) : AppState :=
  { s with transactionFields := removeField s.transactionFields name }

/-- App.jsx lines 105-108. -/
def removeSellerField (s : AppState) (name : String) : AppState :=
  { s with sellerFields := removeField s.sellerFields name }

/-- App.jsx lines 111-115. -/
def availableTransactionFields (s : AppState) : List Field :=
  otherItems.filter (fun i =>
    i.«section» == "transaction" && !(s.transactionFields.any (fun f => f.name == i.name)))

/-- App.jsx lines 117-121. -/
def availableSellerFields (s : AppState) : List Field :=
  otherItems.filter (fun i =>
    i.«section» == "seller" && !(s.sellerFields.any (fun f => f.name == i.name)))

/-! ## The two `DropZone` instances -/

/-- The two `DropZone` elements rendered by `App` (lines 131-137 and 142-148). -/
inductive Zone where
  | transactionInfo
  | sellerInfo
deriving DecidableEq, Repr

/-- The `acceptedSection` prop of each zone. -/
def Zone.acceptedSection : Zone → String
  | .transactionInfo => "transaction"
  | .sellerInfo => "seller"

/-- The `fields` prop of each zone. -/
def Zone.fields : Zone → AppState → List Field
  | .transactionInfo, s => s.transactionFields
  | .sellerInfo, s => s.sellerFields

/-- The `onDropField` that `drop` (line 40) calls.  `useDrop` is given a
factory and no dependency array (lines 37-45), so the drop specification is
built once, on the first render, and `drop` keeps calling the handler
created there: its guard reads the lists of the first render. -/
def Zone.onDropField : Zone → AppState → Field → AppState
  | .transactionInfo => handleTransactionDrop initialState.transactionFields
  | .sellerInfo => handleSellerDrop initialState.sellerFields

/-- The `onRemove` prop of each zone. -/
def Zone.onRemove : Zone → AppState → String → AppState
  | .transactionInfo => removeTransactionField
  | .sellerInfo => removeSellerField

/-- The other zone. -/
def Zone.other : Zone → Zone
  | .transactionInfo => .sellerInfo
  | .sellerInfo => .transactionInfo

/-- The palette group rendered for the section of a zone (lines 155-171). -/
def Zone.available : Zone → AppState → List Field
  | .transactionInfo => availableTransactionFields
  | .sellerInfo => availableSellerFields

/-- The guard of `useDrop`, line 39: `item.section === acceptedSection`. -/
def canDrop (acceptedSection : String) (item : Field) : Bool :=
  item.«section» == acceptedSection

/-- A drop of `item` on zone `z`: the drag-and-drop library calls `drop`
(line 40) only when `canDrop` holds, otherwise nothing runs. -/
def dropOn (z : Zone) (s : AppState) (item : Field) : AppState :=
  if canDrop z.acceptedSection item then z.onDropField s item else s

/-! ## Event sequences -/

/-- A user event that reaches a callback of `App`. -/
inductive Event where
  | drop (z : Zone) (item : Field)
  | remove (z : Zone) (name : String)
deriving DecidableEq, Repr

/-- One event applied to the state. -/
def step (s : AppState) : Event → AppState
  | .drop z item => dropOn z s item
  | .remove z name => z.onRemove s name

/-- A sequence of events applied from left to right. -/
def run (s : AppState) (es : List Event) : AppState :=
  es.foldl step s

/-- The drag payload is a catalog item: the only drag sources are the
`DraggableField` elements, rendered from filters of `otherItems`. -/
def Event.fromCatalog : Event → Bool
  | .drop _ item => decide (item ∈ otherItems)
  | .remove _ _ => true

/-- States reachable from the initial state by drops of catalog fields on
either zone (listed or not) and removals of any name from either zone. -/
def Reachable (s : AppState) : Prop :=
  ∃ es : List Event, (∀ e ∈ es, e.fromCatalog = true) ∧ run initialState es = s

/-- The drag sources on screen: the two groups of `DraggableField` elements
(lines 155-171). -/
def palette (s : AppState) : List Field :=
  availableTransactionFields s ++ availableSellerFields s

/-- The event can be produced by the user in state `s`: a drag starts from an
element of the palette; a removal of any name is allowed. -/
def Event.offered (s : AppState) : Event → Bool
  | .drop _ item => decide (item ∈ palette s)
  | .remove _ _ => true

/-- Every event of the sequence is offered in the state it is applied to. -/
def offeredRun (s : AppState) : List Event → Bool
  | [] => true
  | e :: es => e.offered s && offeredRun (step s e) es

/-- States the user can reach from the initial state: each drop carries an
item that is on the palette at that moment. -/
def ReachableByUser (s : AppState) : Prop :=
  ∃ es : List Event, offeredRun initialState es = true ∧ run initialState es = s

/-- A list of fields has no two entries with the same name. -/
def UniqueByName (fields : List Field) : Prop :=
  (fields.map (fun f => f.name)).Nodup

/-- Modelled after the specification's wording of the palette contract: the
catalog items of a section whose name is present in neither assignment
list, in catalog order. -/
def availableInNeither (sec : String) (s : AppState) : List Field :=
  otherItems.filter (fun i =>
    i.«section» == sec
      && !(s.transactionFields.any (fun f => f.name == i.name))
      && !(s.sellerFields.any (fun f => f.name == i.name)))

/-- The seed entry of the list shown by a zone. -/
def Zone.seed : Zone → Field
  | .transactionInfo => transactionSeed
  | .sellerInfo => sellerSeed

/-- The catalog item dragged in the scenario (second catalog entry). -/
def fiscalPeriod : Field :=
  { name := "fiscal_period", label := "Fiscal Period", «section» := "transaction", default := none }

/-- The third catalog entry. -/
def outputMetrics : Field :=
  { name := "output_metrics", label := "Output Metrics", «section» := "transaction", default := none }

/-- The fourth catalog entry. -/
def developerCountry : Field :=
  { name := "developer_country", label := "Developer Country", «section» := "seller", default := none }

/-- The names a zone list can hold: the seed name and the names of the
catalog items of the zone section. -/
def zoneNames (z : Zone) : List String :=
  z.seed.name ::
    (otherItems.filter (fun i => i.«section» == z.acceptedSection)).map (fun f => f.name)

/-- Shape of a zone list: the seed first, then catalog items of the section. -/
def Seeded (z : Zone) (l : List Field) : Prop :=
  ∃ tl, l = z.seed :: tl ∧ ∀ e ∈ tl, e ∈ otherItems ∧ e.«section» = z.acceptedSection

/-- The state invariant: each zone list is seeded. -/
def Inv (s : AppState) : Prop :=
  ∀ z : Zone, Seeded z (z.fields s)

/-! ## Auxiliary lemmas -/

theorem any_name_eq_true {l : List Field} {n : String} :
    l.any (fun f => f.name == n) = true ↔ ∃ e ∈ l, e.name = n := by
  simp [List.any_eq_true]

theorem removeField_sublist (l : List Field) (name : String) :
    (removeField l name).Sublist l :=
  List.filter_sublist l

theorem uniqueByName_removeField {l : List Field} (name : String)
    (h : UniqueByName l) : UniqueByName (removeField l name) :=
  List.Nodup.sublist ((removeField_sublist l name).map _) h

theorem uniqueByName_append_of_absent {l : List Field} {item : Field}
    (h : UniqueByName l) (ha : ∀ e ∈ l, e.name ≠ item.name) : UniqueByName (l ++ [item]) := by
  unfold UniqueByName at *
  rw [List.map_append, List.nodup_append]
  refine ⟨h, by simp, ?_⟩
  intro a ha1 ha2
  simp only [List.map_cons, List.map_nil, List.mem_singleton] at ha2
  obtain ⟨e, hel, hen⟩ := List.mem_map.mp ha1
  exact ha e hel (hen.trans ha2)

theorem removeField_of_absent {l : List Field} {name : String}
    (h : ∀ e ∈ l, e.name = name → truthy e.default = true) : removeField l name = l := by
  unfold removeField
  rw [List.filter_eq_self]
  intro e he
  by_cases hn : e.name = name
  · simp [h e he hn]
  · simp [hn]

theorem Zone.eq_or_eq_other (z w : Zone) : w = z ∨ w = z.other := by
  cases z <;> cases w <;> simp [Zone.other]

theorem acceptedSection_other_ne (z : Zone) : z.other.acceptedSection ≠ z.acceptedSection := by
  cases z <;> decide

theorem fields_initialState (z : Zone) : z.fields initialState = [z.seed] := by
  cases z <;> rfl

theorem fields_onDropField_self (z : Zone) (s : AppState) (item : Field) :
    z.fields (z.onDropField s item) =
      if !((z.fields initialState).any (fun f => f.name == item.name)) then
        z.fields s ++ [item]
      else z.fields s := by
  cases z
  · show Zone.fields .transactionInfo (handleTransactionDrop _ s item) = _
    unfold handleTransactionDrop
    by_cases h : (!(initialState.transactionFields.any (fun f => f.name == item.name))) = true
    · rw [if_pos h]; exact (if_pos h).symm
    · rw [if_neg h]; exact (if_neg h).symm
  · show Zone.fields .sellerInfo (handleSellerDrop _ s item) = _
    unfold handleSellerDrop
    by_cases h : (!(initialState.sellerFields.any (fun f => f.name == item.name))) = true
    · rw [if_pos h]; exact (if_pos h).symm
    · rw [if_neg h]; exact (if_neg h).symm

theorem fields_onDropField_other (z : Zone) (s : AppState) (item : Field) :
    z.other.fields (z.onDropField s item) = z.other.fields s := by
  cases z
  · show Zone.fields .sellerInfo (handleTransactionDrop _ s item) = _
    unfold handleTransactionDrop
    split <;> rfl
  · show Zone.fields .transactionInfo (handleSellerDrop _ s item) = _
    unfold handleSellerDrop
    split <;> rfl

theorem fields_onRemove_self (z : Zone) (s : AppState) (name : String) :
    z.fields (z.onRemove s name) = removeField (z.fields s) name := by
  cases z <;> rfl

theorem fields_onRemove_other (z : Zone) (s : AppState) (name : String) :
    z.other.fields (z.onRemove s name) = z.other.fields s := by
  cases z <;> rfl

theorem AppState.ext_fields {s t : AppState}
    (h : ∀ z : Zone, z.fields s = z.fields t) : s = t := by
  cases s; cases t
  have h1 := h .transactionInfo
  have h2 := h .sellerInfo
  simp only [Zone.fields] at h1 h2
  simp [h1, h2]

theorem canDrop_iff (z : Zone) (item : Field) :
    canDrop z.acceptedSection item = true ↔ z.acceptedSection = item.«section» := by
  unfold canDrop
  rw [beq_iff_eq]
  exact eq_comm

theorem fields_dropOn_other (z : Zone) (s : AppState) (item : Field) :
    z.other.fields (dropOn z s item) = z.other.fields s := by
  unfold dropOn
  split
  · exact fields_onDropField_other z s item
  · rfl

/-- A drop either appends the payload to the zone list, and then the payload
passed `canDrop`, or leaves the zone list as it is. -/
theorem fields_dropOn_cases (z : Zone) (s : AppState) (item : Field) :
    (z.acceptedSection = item.«section» ∧ z.fields (dropOn z s item) = z.fields s ++ [item])
      ∨ z.fields (dropOn z s item) = z.fields s := by
  unfold dropOn
  by_cases hc : canDrop z.acceptedSection item = true
  · rw [if_pos hc, fields_onDropField_self]
    split
    · exact Or.inl ⟨(canDrop_iff z item).mp hc, rfl⟩
    · exact Or.inr rfl
  · rw [if_neg hc]
    exact Or.inr rfl

theorem catalog_default {f : Field} (h : f ∈ otherItems) : f.default = none := by
  revert f; decide

theorem catalog_name_ne_seed (z : Zone) : ∀ i ∈ otherItems, z.seed.name ≠ i.name := by
  cases z <;> decide

/-- For a catalog item of the zone section the first-render guard passes, so
the drop appends. -/
theorem fields_dropOn_of_catalog (z : Zone) (s : AppState) {item : Field}
    (hi : item ∈ otherItems) (hsec : z.acceptedSection = item.«section») :
    z.fields (dropOn z s item) = z.fields s ++ [item] := by
  have hg : (z.fields initialState).any (fun f => f.name == item.name) = false := by
    rw [Bool.eq_false_iff, fields_initialState]
    intro hc
    obtain ⟨e, he, hn⟩ := any_name_eq_true.mp hc
    rw [List.mem_singleton.mp he] at hn
    exact catalog_name_ne_seed z item hi hn
  unfold dropOn
  rw [if_pos ((canDrop_iff z item).mpr hsec), fields_onDropField_self, hg]
  rfl

theorem seed_truthy (z : Zone) : truthy z.seed.default = true := by
  cases z <;> rfl

theorem mem_available_iff (z : Zone) (s : AppState) (f : Field) :
    f ∈ z.available s ↔
      f ∈ otherItems ∧ f.«section» = z.acceptedSection ∧ ∀ e ∈ z.fields s, e.name ≠ f.name := by
  cases z <;>
    simp [Zone.available, availableTransactionFields, availableSellerFields,
      Zone.acceptedSection, Zone.fields, List.mem_filter]

theorem mem_palette_iff (s : AppState) (f : Field) :
    f ∈ palette s ↔ ∃ w : Zone, f ∈ w.available s := by
  unfold palette
  rw [List.mem_append]
  constructor
  · rintro (h | h)
    · exact ⟨.transactionInfo, h⟩
    · exact ⟨.sellerInfo, h⟩
  · rintro ⟨w, h⟩
    cases w
    · exact Or.inl h
    · exact Or.inr h

theorem removeField_seeded_cons (z : Zone) (tl : List Field) (name : String) :
    removeField (z.seed :: tl) name = z.seed :: removeField tl name := by
  unfold removeField
  rw [List.filter_cons_of_pos]
  simp [seed_truthy z]

theorem seeded_removeField {z : Zone} {l : List Field} (name : String) (hs : Seeded z l) :
    Seeded z (removeField l name) := by
  obtain ⟨tl, rfl, htl⟩ := hs
  rw [removeField_seeded_cons]
  exact ⟨removeField tl name, rfl, fun e he => htl e ((removeField_sublist tl name).subset he)⟩

theorem seeded_append {z : Zone} {l : List Field} {item : Field} (hs : Seeded z l)
    (hi : item ∈ otherItems) (hsec : item.«section» = z.acceptedSection) :
    Seeded z (l ++ [item]) := by
  obtain ⟨tl, rfl, htl⟩ := hs
  refine ⟨tl ++ [item], rfl, ?_⟩
  intro e hmem
  rcases List.mem_append.mp hmem with h | h
  · exact htl e h
  · rw [List.mem_singleton.mp h]; exact ⟨hi, hsec⟩

theorem inv_initial : Inv initialState := by
  intro z
  cases z
  · exact ⟨[], rfl, by simp⟩
  · exact ⟨[], rfl, by simp⟩

theorem inv_dropOn {s : AppState} (z : Zone) {item : Field} (h : Inv s)
    (hi : item ∈ otherItems) : Inv (dropOn z s item) := by
  intro w
  rcases Zone.eq_or_eq_other z w with rfl | rfl
  · rcases fields_dropOn_cases w s item with ⟨hsec, he⟩ | he
    · rw [he]; exact seeded_append (h w) hi hsec.symm
    · rw [he]; exact h w
  · rw [fields_dropOn_other]; exact h _

theorem inv_onRemove {s : AppState} (z : Zone) (name : String) (h : Inv s) :
    Inv (z.onRemove s name) := by
  intro w
  rcases Zone.eq_or_eq_other z w with rfl | rfl
  · rw [fields_onRemove_self]
    exact seeded_removeField name (h w)
  · rw [fields_onRemove_other]; exact h _

theorem inv_step {s : AppState} {e : Event} (h : Inv s) (he : e.fromCatalog = true) :
    Inv (step s e) := by
  cases e with
  | drop z item =>
    have hi : item ∈ otherItems := by simpa [Event.fromCatalog] using he
    exact inv_dropOn z h hi
  | remove z name => exact inv_onRemove z name h

theorem inv_run (es : List Event) :
    ∀ s : AppState, Inv s → (∀ e ∈ es, e.fromCatalog = true) → Inv (run s es) := by
  induction es with
  | nil => intro s h _; exact h
  | cons e es ih =>
    intro s h hall
    have h1 : Inv (step s e) := inv_step h (hall e (List.mem_cons_self e es))
    exact ih (step s e) h1 (fun x hx => hall x (List.mem_cons_of_mem e hx))

theorem inv_of_reachable {s : AppState} (h : Reachable s) : Inv s := by
  obtain ⟨es, hall, rfl⟩ := h
  exact inv_run es initialState inv_initial hall

/-- On the palette-driven runs both lists stay unique by name: an item on the
palette is absent from the list of the only zone that accepts it. -/
theorem unique_step {s : AppState} {e : Event} (h : ∀ z : Zone, UniqueByName (z.fields s))
    (he : e.offered s = true) : ∀ z : Zone, UniqueByName (z.fields (step s e)) := by
  intro w
  cases e with
  | drop z item =>
    show UniqueByName (w.fields (dropOn z s item))
    have hp : item ∈ palette s := by simpa [Event.offered] using he
    rcases Zone.eq_or_eq_other z w with rfl | rfl
    · rcases fields_dropOn_cases w s item with ⟨hsec, hf⟩ | hf
      · rw [hf]
        obtain ⟨v, hv⟩ := (mem_palette_iff s item).mp hp
        obtain ⟨_, hvsec, habs⟩ := (mem_available_iff v s item).mp hv
        rcases Zone.eq_or_eq_other w v with rfl | rfl
        · exact uniqueByName_append_of_absent (h v) habs
        · exact absurd (hvsec.symm.trans hsec.symm) (acceptedSection_other_ne w)
      · rw [hf]; exact h w
    · rw [fields_dropOn_other]; exact h _
  | remove z name =>
    show UniqueByName (w.fields (z.onRemove s name))
    rcases Zone.eq_or_eq_other z w with rfl | rfl
    · rw [fields_onRemove_self]; exact uniqueByName_removeField name (h w)
    · rw [fields_onRemove_other]; exact h _

theorem unique_run (es : List Event) :
    ∀ s : AppState, (∀ z : Zone, UniqueByName (z.fields s)) → offeredRun s es = true →
      ∀ z : Zone, UniqueByName (z.fields (run s es)) := by
  induction es with
  | nil => intro s h _; exact h
  | cons e es ih =>
    intro s h hrun
    simp only [offeredRun, Bool.and_eq_true] at hrun
    exact ih (step s e) (unique_step h hrun.1) hrun.2

theorem unique_of_reachableByUser {s : AppState} (h : ReachableByUser s) (z : Zone) :
    UniqueByName (z.fields s) := by
  obtain ⟨es, hrun, rfl⟩ := h
  refine unique_run es initialState (fun w => ?_) hrun z
  rw [fields_initialState]
  simp [UniqueByName]

theorem seeded_name_mem {z : Zone} {l : List Field} (hs : Seeded z l) {e : Field}
    (he : e ∈ l) : e.name ∈ zoneNames z := by
  obtain ⟨tl, rfl, htl⟩ := hs
  unfold zoneNames
  rcases List.mem_cons.mp he with h | h
  · rw [h]; exact List.mem_cons_self _ _
  · refine List.mem_cons_of_mem _ (List.mem_map.mpr ⟨e, ?_, rfl⟩)
    rw [List.mem_filter]
    exact ⟨(htl e h).1, by rw [beq_iff_eq]; exact (htl e h).2⟩

theorem catalog_name_mem {z : Zone} {i : Field} (hi : i ∈ otherItems)
    (hsec : i.«section» = z.acceptedSection) : i.name ∈ zoneNames z := by
  unfold zoneNames
  refine List.mem_cons_of_mem _ (List.mem_map.mpr ⟨i, ?_, rfl⟩)
  rw [List.mem_filter]
  exact ⟨hi, by rw [beq_iff_eq]; exact hsec⟩

theorem zoneNames_disjoint (z : Zone) : ∀ a ∈ zoneNames z, a ∉ zoneNames z.other := by
  cases z <;> decide

theorem names_ne_across {s : AppState} (h : Inv s) (z : Zone) {a b : Field}
    (ha : a ∈ z.fields s) (hb : b ∈ z.other.fields s) : a.name ≠ b.name := by
  intro heq
  have h1 := seeded_name_mem (h z) ha
  have h2 := seeded_name_mem (h z.other) hb
  rw [← heq] at h2
  exact zoneNames_disjoint z _ h1 h2

theorem available_ne_other {s : AppState} (h : Inv s) (z : Zone) {i e : Field}
    (hi : i ∈ z.available s) (he : e ∈ z.other.fields s) : i.name ≠ e.name := by
  intro heq
  obtain ⟨hcat, hsec, _⟩ := (mem_available_iff z s i).mp hi
  have h1 := catalog_name_mem hcat hsec
  have h2 := seeded_name_mem (h z.other) he
  rw [← heq] at h2
  exact zoneNames_disjoint z _ h1 h2

theorem available_ne_self {s : AppState} (z : Zone) {i e : Field}
    (hi : i ∈ z.available s) (he : e ∈ z.fields s) : i.name ≠ e.name :=
  fun heq => ((mem_available_iff z s i).mp hi).2.2 e he heq.symm

theorem removeField_of_ne {l : List Field} {name : String}
    (h : ∀ x ∈ l, x.name ≠ name) : removeField l name = l :=
  removeField_of_absent (fun x hx hn => absurd hn (h x hx))

theorem removeField_append (l₁ l₂ : List Field) (name : String) :
    removeField (l₁ ++ l₂) name = removeField l₁ name ++ removeField l₂ name := by
  unfold removeField
  exact List.filter_append l₁ l₂

theorem removeField_cons_drop {e : Field} {name : String} (l : List Field)
    (hn : e.name = name) (hd : truthy e.default = false) :
    removeField (e :: l) name = removeField l name := by
  unfold removeField
  rw [List.filter_cons_of_neg]
  simp [hn, hd]

theorem uniqueByName_split {pre post : List Field} {e : Field}
    (h : UniqueByName (pre ++ e :: post)) :
    (∀ x ∈ pre, x.name ≠ e.name) ∧ (∀ x ∈ post, x.name ≠ e.name) := by
  unfold UniqueByName at h
  rw [List.map_append, List.map_cons, List.nodup_append, List.nodup_cons] at h
  obtain ⟨_, ⟨hpost, _⟩, hdisj⟩ := h
  constructor
  · intro x hx hn
    exact hdisj (List.mem_map.mpr ⟨x, hx, rfl⟩) (by rw [hn]; exact List.mem_cons_self _ _)
  · intro x hx hn
    exact hpost (List.mem_map.mpr ⟨x, hx, hn⟩)

theorem any_other_false {s : AppState} (h : Inv s) (z : Zone) {i : Field}
    (hi : i ∈ otherItems) (hsec : i.«section» = z.acceptedSection) :
    (z.other.fields s).any (fun f => f.name == i.name) = false := by
  rw [Bool.eq_false_iff]
  intro hc
  obtain ⟨e, he, hn⟩ := any_name_eq_true.mp hc
  have h1 := catalog_name_mem hi hsec
  have h2 := seeded_name_mem (h z.other) he
  rw [hn] at h2
  exact zoneNames_disjoint z _ h1 h2

theorem defaults_of_seeded {z : Zone} {l : List Field} (hs : Seeded z l) :
    l.head? = some z.seed ∧ l.filter (fun f => f.default == some true) = [z.seed] ∧ l ≠ [] := by
  obtain ⟨tl, rfl, htl⟩ := hs
  refine ⟨rfl, ?_, by simp⟩
  have hz : (z.seed.default == some true) = true := by cases z <;> rfl
  have htail : tl.filter (fun f => f.default == some true) = [] := by
    rw [List.filter_eq_nil_iff]
    intro a ha
    rw [catalog_default (htl a ha).1]
    decide
  rw [List.filter_cons, if_pos hz, htail]

/-! ## Properties of drops -/

/-- C1 (matching drop). In every state, reachable or not, when a field `f` is
in the available view of the zone whose section is `f.section` (so `f` is a
catalog item), one drop of `f` on that zone makes the zone list the old list
with `f` appended at the end, leaves the other list alone, `f` occurs exactly
once in the new list, and `f` is in neither available view of the new state. -/
theorem matching_drop_appends (s : AppState) (z : Zone) (f : Field)
    (hz : z.acceptedSection = f.«section») (hav : f ∈ z.available s) :
    z.fields (dropOn z s f) = z.fields s ++ [f]
      ∧ z.other.fields (dropOn z s f) = z.other.fields s
      ∧ (z.fields (dropOn z s f)).count f = 1
      ∧ f ∉ availableTransactionFields (dropOn z s f)
      ∧ f ∉ availableSellerFields (dropOn z s f) := by
  obtain ⟨hcat, _, habs⟩ := (mem_available_iff z s f).mp hav
  have hnew : z.fields (dropOn z s f) = z.fields s ++ [f] := fields_dropOn_of_catalog z s hcat hz
  have hnot : ∀ w : Zone, f ∉ w.available (dropOn z s f) := by
    intro w hw
    obtain ⟨_, hsec, hno⟩ := (mem_available_iff w _ f).mp hw
    rcases Zone.eq_or_eq_other z w with rfl | rfl
    · rw [hnew] at hno
      exact hno f (List.mem_append_right _ (List.mem_singleton_self f)) rfl
    · exact acceptedSection_other_ne z (hsec.symm.trans hz.symm)
  refine ⟨hnew, fields_dropOn_other z s f, ?_, hnot .transactionInfo, hnot .sellerInfo⟩
  have hnotin : f ∉ z.fields s := fun hm => habs f hm rfl
  rw [hnew, List.count_append, List.count_eq_zero_of_not_mem hnotin]
  simp

/-- Witness of C1: `fiscal_period` dropped on Transaction Info in the initial state. -/
theorem matching_drop_appends_witness :
    fiscalPeriod ∈ otherItems
      ∧ Zone.transactionInfo.acceptedSection = fiscalPeriod.«section»
      ∧ fiscalPeriod ∈ Zone.transactionInfo.available initialState
      ∧ Zone.transactionInfo.fields (dropOn .transactionInfo initialState fiscalPeriod)
          = Zone.transactionInfo.fields initialState ++ [fiscalPeriod]
      ∧ fiscalPeriod ∉ availableTransactionFields
          (dropOn .transactionInfo initialState fiscalPeriod) :=
  have h := matching_drop_appends initialState .transactionInfo fiscalPeriod
    (by decide) (by decide)
  ⟨by decide, by decide, by decide, h.1, h.2.2.2.1⟩

/-- C2 (mismatched drop). In every state, a drop of any field on a zone whose
section differs from the section of the field fails the `canDrop` guard and
returns the state unchanged: both lists are as before.  The drop is a total
function of the state, so there is no failure outcome. -/
theorem mismatched_drop_is_noop (s : AppState) (z : Zone) (f : Field)
    (hz : z.acceptedSection ≠ f.«section») :
    canDrop z.acceptedSection f = false
      ∧ dropOn z s f = s
      ∧ (dropOn z s f).transactionFields = s.transactionFields
      ∧ (dropOn z s f).sellerFields = s.sellerFields := by
  have hc : canDrop z.acceptedSection f = false := by
    rw [Bool.eq_false_iff]
    exact fun h => hz ((canDrop_iff z f).mp h)
  have hs : dropOn z s f = s := by
    unfold dropOn
    rw [hc]
    rfl
  exact ⟨hc, hs, by rw [hs], by rw [hs]⟩

/-- Witness of C2: `fiscal_period` (section transaction) dropped on Seller Info. -/
theorem mismatched_drop_is_noop_witness :
    Zone.sellerInfo.acceptedSection ≠ fiscalPeriod.«section»
      ∧ dropOn .sellerInfo initialState fiscalPeriod = initialState :=
  ⟨by decide, (mismatched_drop_is_noop initialState .sellerInfo fiscalPeriod (by decide)).2.1⟩

/-- C3 (divergence). A second drop of `fiscal_period` on Transaction Info is
not a no-op: the guard of the handler that `drop` calls reads the list of
the first render, `[transaction_id]`, so the item is appended again and the
list holds two entries named `fiscal_period`.  The handler created by the
render that shows the item, were it the one called, leaves the state as it
is. -/
theorem second_drop_appends_again :
    (dropOn .transactionInfo initialState fiscalPeriod).transactionFields
        = [transactionSeed, fiscalPeriod]
      ∧ (dropOn .transactionInfo (dropOn .transactionInfo initialState fiscalPeriod)
          fiscalPeriod).transactionFields = [transactionSeed, fiscalPeriod, fiscalPeriod]
      ∧ dropOn .transactionInfo (dropOn .transactionInfo initialState fiscalPeriod) fiscalPeriod
          ≠ dropOn .transactionInfo initialState fiscalPeriod
      ∧ ((dropOn .transactionInfo (dropOn .transactionInfo initialState fiscalPeriod)
          fiscalPeriod).transactionFields.countP (fun e => e.name == fiscalPeriod.name)) = 2
      ∧ handleTransactionDrop [transactionSeed, fiscalPeriod]
          (dropOn .transactionInfo initialState fiscalPeriod) fiscalPeriod
          = dropOn .transactionInfo initialState fiscalPeriod := by
  decide

/-! ## Properties of removals -/

/-- C4 (remove by name). In every state the user can reach (drops of items
on the palette, removals of any name), for each zone and name: if the zone
list has an entry `e` with that name whose `default` is falsy, the remove
callback deletes exactly that entry (the list splits as `pre ++ e :: post`
and becomes `pre ++ post`, one shorter, with no entry of that name left) and
the other list is unchanged; if every entry with that name is a default
entry, or there is none, the state is unchanged. -/
theorem remove_by_name (s : AppState) (z : Zone) (name : String) (hr : ReachableByUser s) :
    (∀ e ∈ z.fields s, e.name = name → truthy e.default = false →
        (∃ pre post, z.fields s = pre ++ e :: post
            ∧ z.fields (z.onRemove s name) = pre ++ post
            ∧ ∀ x ∈ pre ++ post, x.name ≠ name)
          ∧ (z.fields (z.onRemove s name)).length + 1 = (z.fields s).length
          ∧ z.other.fields (z.onRemove s name) = z.other.fields s)
      ∧ ((∀ e ∈ z.fields s, e.name = name → truthy e.default = true) →
          z.onRemove s name = s) := by
  have hu : UniqueByName (z.fields s) := unique_of_reachableByUser hr z
  constructor
  · intro e he hn hd
    obtain ⟨pre, post, hsplit⟩ := List.append_of_mem he
    rw [hsplit] at hu
    obtain ⟨h1, h2⟩ := uniqueByName_split hu
    rw [hn] at h1 h2
    have hnew : z.fields (z.onRemove s name) = pre ++ post := by
      rw [fields_onRemove_self, hsplit, removeField_append, removeField_cons_drop post hn hd,
        removeField_of_ne h1, removeField_of_ne h2]
    refine ⟨⟨pre, post, hsplit, hnew, ?_⟩, ?_, fields_onRemove_other z s name⟩
    · intro x hx
      rcases List.mem_append.mp hx with h | h
      · exact h1 x h
      · exact h2 x h
    · rw [hnew, hsplit]
      simp only [List.length_append, List.length_cons]
      omega
  · intro hall
    apply AppState.ext_fields
    intro w
    rcases Zone.eq_or_eq_other z w with rfl | rfl
    · rw [fields_onRemove_self]; exact removeField_of_absent hall
    · exact fields_onRemove_other z s name

/-- Witness of C4: after `fiscal_period` and `output_metrics` were dropped on
Transaction Info, removing `fiscal_period` deletes that one entry. -/
theorem remove_by_name_witness :
    ReachableByUser (run initialState
        [.drop .transactionInfo fiscalPeriod, .drop .transactionInfo outputMetrics])
      ∧ (Zone.transactionInfo.fields
          (Zone.transactionInfo.onRemove
            (run initialState
              [.drop .transactionInfo fiscalPeriod, .drop .transactionInfo outputMetrics])
            "fiscal_period")).length + 1 = 3 :=
  have hr : ReachableByUser (run initialState
      [.drop .transactionInfo fiscalPeriod, .drop .transactionInfo outputMetrics]) :=
    ⟨_, by decide, rfl⟩
  ⟨hr, ((remove_by_name _ .transactionInfo "fiscal_period" hr).1
      fiscalPeriod (by decide) (by decide) (by decide)).2.1⟩

/-- C10 (drop then remove). In every state, reachable or not, when `f` is in
the available view of zone `z`, dropping `f` on `z` and then removing
`f.name` from `z` gives back the state: both lists are as before, so both
available views are as before and `f` is in the view of `z` again. -/
theorem drop_then_remove_round_trip (s : AppState) (z : Zone) (f : Field)
    (hav : f ∈ z.available s) :
    z.onRemove (dropOn z s f) f.name = s
      ∧ availableTransactionFields (z.onRemove (dropOn z s f) f.name)
          = availableTransactionFields s
      ∧ availableSellerFields (z.onRemove (dropOn z s f) f.name) = availableSellerFields s
      ∧ f ∈ z.available (z.onRemove (dropOn z s f) f.name) := by
  obtain ⟨hcat, hsec, habs⟩ := (mem_available_iff z s f).mp hav
  have hback : z.onRemove (dropOn z s f) f.name = s := by
    apply AppState.ext_fields
    intro w
    rcases Zone.eq_or_eq_other z w with rfl | rfl
    · rw [fields_onRemove_self, fields_dropOn_of_catalog w s hcat hsec.symm,
        removeField_append, removeField_of_ne habs,
        removeField_cons_drop [] rfl (by rw [catalog_default hcat]; rfl)]
      simp [removeField]
    · rw [fields_onRemove_other, fields_dropOn_other]
  rw [hback]
  exact ⟨rfl, rfl, rfl, hav⟩

/-- Witness of C10: `fiscal_period` dropped on Transaction Info and removed again. -/
theorem drop_then_remove_round_trip_witness :
    fiscalPeriod ∈ Zone.transactionInfo.available initialState
      ∧ Zone.transactionInfo.onRemove (dropOn .transactionInfo initialState fiscalPeriod)
          fiscalPeriod.name = initialState :=
  ⟨by decide,
    (drop_then_remove_round_trip initialState .transactionInfo fiscalPeriod (by decide)).1⟩

/-! ## The scenario -/

/-- C5 as stated fails: after `fiscal_period` is dropped on Transaction Info
in the initial state, the available view of the transaction section does
not have 5 items. -/
theorem scenario_section_view_not_five :
    ¬ (initialState.transactionFields = [transactionSeed]
        ∧ initialState.sellerFields = [sellerSeed]
        ∧ otherItems.length = 6
        ∧ (dropOn .transactionInfo initialState fiscalPeriod).transactionFields
            = [transactionSeed, fiscalPeriod]
        ∧ (availableTransactionFields
            (dropOn .transactionInfo initialState fiscalPeriod)).length = 5) := by
  decide

/-- C5 (amended). The initial lists are `[transaction_id]` and `[seller_name]`,
both seeds with `default: true`; the catalog has 6 items, `fiscal_period`
among them; after it is dropped on Transaction Info the Transaction list is
`[transaction_id, fiscal_period]` (2 entries), the available view of the
transaction section has 2 items and the two available views together have
5 items. -/
theorem scenario_fiscal_period :
    initialState.transactionFields = [transactionSeed]
      ∧ initialState.sellerFields = [sellerSeed]
      ∧ transactionSeed.name = "transaction_id" ∧ transactionSeed.default = some true
      ∧ sellerSeed.name = "seller_name" ∧ sellerSeed.default = some true
      ∧ otherItems.length = 6
      ∧ fiscalPeriod ∈ otherItems ∧ fiscalPeriod.name = "fiscal_period"
      ∧ (dropOn .transactionInfo initialState fiscalPeriod).transactionFields
          = [transactionSeed, fiscalPeriod]
      ∧ (dropOn .transactionInfo initialState fiscalPeriod).transactionFields.length = 2
      ∧ (availableTransactionFields
          (dropOn .transactionInfo initialState fiscalPeriod)).length = 2
      ∧ (availableTransactionFields (dropOn .transactionInfo initialState fiscalPeriod)).length
          + (availableSellerFields (dropOn .transactionInfo initialState fiscalPeriod)).length
          = 5 := by
  decide

/-! ## Invariants of reachable states -/

/-- C6 (disjointness). In every reachable state no name occurs in both
`transactionFields` and `sellerFields`, and no name of an item of either
available view occurs in either assignment list. -/
theorem lists_and_views_disjoint (s : AppState) (hr : Reachable s) :
    (∀ a ∈ s.transactionFields, ∀ b ∈ s.sellerFields, a.name ≠ b.name)
      ∧ (∀ i ∈ availableTransactionFields s,
          ∀ e ∈ s.transactionFields ++ s.sellerFields, i.name ≠ e.name)
      ∧ (∀ i ∈ availableSellerFields s,
          ∀ e ∈ s.transactionFields ++ s.sellerFields, i.name ≠ e.name) := by
  have hinv := inv_of_reachable hr
  refine ⟨?_, ?_, ?_⟩
  · intro a ha b hb
    exact names_ne_across hinv .transactionInfo ha hb
  · intro i hi e he
    rcases List.mem_append.mp he with h | h
    · exact available_ne_self .transactionInfo hi h
    · exact available_ne_other hinv .transactionInfo hi h
  · intro i hi e he
    rcases List.mem_append.mp he with h | h
    · exact available_ne_other hinv .sellerInfo hi h
    · exact available_ne_self .sellerInfo hi h

/-- Witness of C6: the state after `fiscal_period` was dropped on Transaction Info. -/
theorem lists_and_views_disjoint_witness :
    Reachable (run initialState [.drop .transactionInfo fiscalPeriod])
      ∧ ∀ a ∈ (run initialState [.drop .transactionInfo fiscalPeriod]).transactionFields,
          ∀ b ∈ (run initialState [.drop .transactionInfo fiscalPeriod]).sellerFields,
            a.name ≠ b.name :=
  have hr : Reachable (run initialState [.drop .transactionInfo fiscalPeriod]) :=
    ⟨_, by decide, rfl⟩
  ⟨hr, (lists_and_views_disjoint _ hr).1⟩

/-- C7 (default seed). In every reachable state (drops of catalog fields and
removals of any name, the seed names included) each list starts with its
seed (`transaction_id`, `seller_name`), the seed is the only entry whose
`default` is `true`, and neither list is empty. -/
theorem default_seed_kept (s : AppState) (hr : Reachable s) :
    s.transactionFields.head? = some transactionSeed
      ∧ s.transactionFields.filter (fun f => f.default == some true) = [transactionSeed]
      ∧ s.sellerFields.head? = some sellerSeed
      ∧ s.sellerFields.filter (fun f => f.default == some true) = [sellerSeed]
      ∧ s.transactionFields ≠ [] ∧ s.sellerFields ≠ [] := by
  have hinv := inv_of_reachable hr
  obtain ⟨t1, t2, t3⟩ := defaults_of_seeded (hinv .transactionInfo)
  obtain ⟨s1, s2, s3⟩ := defaults_of_seeded (hinv .sellerInfo)
  exact ⟨t1, t2, s1, s2, t3, s3⟩

/-- Witness of C7: a drop followed by removals that name both seeds. -/
theorem default_seed_kept_witness :
    Reachable (run initialState
        [.drop .transactionInfo fiscalPeriod, .remove .transactionInfo "transaction_id",
         .remove .sellerInfo "seller_name"])
      ∧ (run initialState
        [.drop .transactionInfo fiscalPeriod, .remove .transactionInfo "transaction_id",
         .remove .sellerInfo "seller_name"]).transactionFields.head? = some transactionSeed :=
  have hr : Reachable (run initialState
      [.drop .transactionInfo fiscalPeriod, .remove .transactionInfo "transaction_id",
       .remove .sellerInfo "seller_name"]) :=
    ⟨_, by decide, rfl⟩
  ⟨hr, (default_seed_kept _ hr).1⟩

/-- C8 (divergence). The lists do not stay unique by name under every
sequence of drops: `developer_country` dropped twice on Seller Info is
listed twice, because the guard of the handler that `drop` calls reads the
list of the first render, `[seller_name]`, and not the current list. -/
theorem repeated_drop_breaks_uniqueness :
    UniqueByName initialState.sellerFields
      ∧ (run initialState
          [.drop .sellerInfo developerCountry, .drop .sellerInfo developerCountry]).sellerFields
          = [sellerSeed, developerCountry, developerCountry]
      ∧ ¬ UniqueByName (run initialState
          [.drop .sellerInfo developerCountry, .drop .sellerInfo developerCountry]).sellerFields := by
  unfold UniqueByName
  decide

/-- C9 (available view). In every reachable state, each available view the
code computes (catalog items of the section whose name is absent from the
list of that section) equals, as a list in catalog order, the catalog items
of the section whose name is in neither list. -/
theorem available_eq_in_neither (s : AppState) (hr : Reachable s) :
    availableTransactionFields s = availableInNeither "transaction" s
      ∧ availableSellerFields s = availableInNeither "seller" s := by
  have hinv := inv_of_reachable hr
  constructor
  · unfold availableTransactionFields availableInNeither
    apply List.filter_congr
    intro i hi
    by_cases hsec : i.«section» = "transaction"
    · have h := any_other_false hinv .transactionInfo hi hsec
      simp only [Zone.other, Zone.fields] at h
      simp [hsec, h]
    · have hb : (i.«section» == "transaction") = false := beq_eq_false_iff_ne.mpr hsec
      rw [hb]
      rfl
  · unfold availableSellerFields availableInNeither
    apply List.filter_congr
    intro i hi
    by_cases hsec : i.«section» = "seller"
    · have h := any_other_false hinv .sellerInfo hi hsec
      simp only [Zone.other, Zone.fields] at h
      simp [hsec, h]
    · have hb : (i.«section» == "seller") = false := beq_eq_false_iff_ne.mpr hsec
      rw [hb]
      rfl

/-- Witness of C9: the state after `fiscal_period` was dropped on Transaction Info. -/
theorem available_eq_in_neither_witness :
    Reachable (dropOn .transactionInfo initialState fiscalPeriod)
      ∧ availableTransactionFields (dropOn .transactionInfo initialState fiscalPeriod)
          = availableInNeither "transaction" (dropOn .transactionInfo initialState fiscalPeriod) :=
  have hr : Reachable (dropOn .transactionInfo initialState fiscalPeriod) :=
    ⟨[.drop .transactionInfo fiscalPeriod], by decide, rfl⟩
  ⟨hr, (available_eq_in_neither _ hr).1⟩

end DragAndDrop
